import Mathlib

/-!
Verification of the word-decomposition core of the repository: the
`PeriodicSpeller` class (exact decomposer `find_all_spellings`, closest-match
searcher `find_closest_match`, missing-letter calculator
`find_missing_letters`, and result assembler `spell_word`).

Words and symbols are embedded as `String` / `List Char`.  Python's
`str.lower`/`str.upper` act here on the ASCII letters the alphabet uses, so
they are embedded as the ASCII case maps.  The mutable accumulators of the
Python code (`all_paths`, `best_solutions`/`min_missing`) become explicit
state threading: each recursive call takes the state so far and returns the
updated state, visiting branches in the same order as the source.
-/

namespace PeriodicSpeller

/-- ASCII lowercasing, the effect of Python `str.lower` on each character
(codes 65–90 are `A`–`Z`). -/
def pyLower (c : Char) : Char :=
  if 65 ≤ c.toNat ∧ c.toNat ≤ 90 then Char.ofNat (c.toNat + 32) else c

/-- ASCII uppercasing, the effect of Python `str.upper` on each character
(codes 97–122 are `a`–`z`). -/
def pyUpper (c : Char) : Char :=
  if 97 ≤ c.toNat ∧ c.toNat ≤ 122 then Char.ofNat (c.toNat - 32) else c

/-- `self.elements`: the 118 element symbols in canonical (mixed) case,
in source order. -/
def elements : List String := [
  "H", "He", "Li", "Be", "B", "C", "N", "O", "F", "Ne",
  "Na", "Mg", "Al", "Si", "P", "S", "Cl", "Ar", "K", "Ca",
  "Sc", "Ti", "V", "Cr", "Mn", "Fe", "Co", "Ni", "Cu", "Zn",
  "Ga", "Ge", "As", "Se", "Br", "Kr", "Rb", "Sr", "Y", "Zr",
  "Nb", "Mo", "Tc", "Ru", "Rh", "Pd", "Ag", "Cd", "In", "Sn",
  "Sb", "Te", "I", "Xe", "Cs", "Ba", "La", "Ce", "Pr", "Nd",
  "Pm", "Sm", "Eu", "Gd", "Tb", "Dy", "Ho", "Er", "Tm", "Yb",
  "Lu", "Hf", "Ta", "W", "Re", "Os", "Ir", "Pt", "Au", "Hg",
  "Tl", "Pb", "Bi", "Po", "At", "Rn", "Fr", "Ra", "Ac", "Th",
  "Pa", "U", "Np", "Pu", "Am", "Cm", "Bk", "Cf", "Es", "Fm",
  "Md", "No", "Lr", "Rf", "Db", "Sg", "Bh", "Hs", "Mt", "Ds",
  "Rg", "Cn", "Nh", "Fl", "Mc", "Lv", "Ts", "Og"]

/-- The lowercased character list of a string (`word.lower()`, `elem.lower()`). -/
def low (s : String) : List Char := s.data.map pyLower

/-- The combined test `chunk in self.elements_lower` plus canonical-case lookup
`next(e for e in self.elements if e.lower() == chunk)`.  Lowercasing is
injective on the alphabet, so the element found is the unique one and the
arbitrary iteration order of the Python set does not matter. -/
def findElement (chunk : List Char) : Option String :=
  elements.find? (fun e => low e == chunk)

/-- Python `list.remove`: drop the first occurrence of `x` (only ever called
when `x` is present). -/
def removeFirst (l : List Char) (x : Char) : List Char :=
  match l with
  | [] => []
  | y :: ys => if y = x then ys else y :: removeFirst ys x

/-- The removal loop of `find_missing_letters`: for each covered letter still
present in the remaining word, remove one occurrence.  (The source also
updates a `covered_remaining` list, but never uses it for the result.) -/
def removeMatched (wordRem : List Char) (covered : List Char) : List Char :=
  covered.foldl (fun wr letter => if letter ∈ wr then removeFirst wr letter else wr) wordRem

/-- `covered_letters`: the lowercase concatenation of a tiling's symbols. -/
def lowConcat (solution : List String) : List Char :=
  (solution.map low).flatten

/-- `find_missing_letters(word, solution)`: lowercase the word, remove one
occurrence per covered letter, return the remaining letters uppercased. -/
def findMissingLetters (word : List Char) (solution : List String) : List Char :=
  (removeMatched (word.map pyLower) (lowConcat solution)).map pyUpper

/-- The inner `backtrack` of `find_all_spellings`, on the remaining suffix of
the lowercased word.  The source's `all_paths` accumulator collects completed
paths in DFS order (chunk length 1 tried before length 2 at each position);
here each call returns its completed paths, in that same order, and the
prepended symbol replaces the source's `current_path + [original_case]`
threading.  The `for length in [1, 2]` loop with its `len(remaining) >= length`
fit test becomes a case split on whether a second character remains: on a
singleton suffix the length-2 chunk does not fit and contributes nothing. -/
def backtrack : List Char → List (List String)
  | [] => [[]]
  | [c] =>
    match findElement [c] with
    | some sym => (backtrack []).map (fun t => sym :: t)
    | none => []
  | c :: d :: rest2 =>
    (match findElement [c] with
     | some sym => (backtrack (d :: rest2)).map (fun t => sym :: t)
     | none => []) ++
    (match findElement [c, d] with
     | some sym => (backtrack rest2).map (fun t => sym :: t)
     | none => [])

/-- `find_all_spellings(word)`. -/
def findAllSpellings (word : String) : List (List String) :=
  backtrack (low word)

/-- The closed-over mutable state of `find_closest_match`: `min_missing`
(`none` models the initial `float('inf')`) and `best_solutions`. -/
structure MatchState where
  minMissing : Option Nat
  best : List (List String × Nat × List Char)
deriving DecidableEq

/-- `missing_letters <= min_missing`, where `none` is `float('inf')`. -/
def leqInf (m : Nat) : Option Nat → Bool
  | none => true
  | some n => decide (m ≤ n)

/-- `missing_letters < min_missing`, where `none` is `float('inf')`. -/
def ltInf (m : Nat) : Option Nat → Bool
  | none => true
  | some n => decide (m < n)

/-- The tuple `(current_path, missing_letters, missing_letters_list)` appended
to `best_solutions` for a completed path `(path, letters_used)` over the
lowercased word `w`. -/
def mkEntry (w : List Char) (leaf : List String × Nat) : List String × Nat × List Char :=
  (leaf.1, w.length - leaf.2, findMissingLetters w leaf.1)

/-- The `pos >= len(word)` body of `try_partial_match`: update
`min_missing`/`best_solutions` with a completed path. -/
def leafStep (w : List Char) (st : MatchState) (leaf : List String × Nat) : MatchState :=
  let missing := w.length - leaf.2
  if leqInf missing st.minMissing then
    let st1 := if ltInf missing st.minMissing then ⟨some missing, []⟩ else st
    { st1 with best := st1.best ++ [mkEntry w leaf] }
  else st

/-- `try_partial_match(pos, current_path, letters_used)` of
`find_closest_match`, with the position encoded as the remaining suffix
`rem = w.drop pos` of the lowercased word `w` (every branch advances `pos` by
at least 1 and by at most the remaining length, so `pos >= len(word)` is
exactly `rem = []`).  Branch order is the source's: chunk length 1, then
chunk length 2, then the unconditional skip. -/
def tryMatchFrom (w : List Char) : List Char → List String → Nat → MatchState → MatchState
  | [], path, used, st => leafStep w st (path, used)
  | [c], path, used, st =>
    let st1 :=
      match findElement [c] with
      | some sym => tryMatchFrom w [] (path ++ [sym]) (used + 1) st
      | none => st
    tryMatchFrom w [] path used st1
  | c :: d :: rest2, path, used, st =>
    let st1 :=
      match findElement [c] with
      | some sym => tryMatchFrom w (d :: rest2) (path ++ [sym]) (used + 1) st
      | none => st
    let st2 :=
      match findElement [c, d] with
      | some sym => tryMatchFrom w rest2 (path ++ [sym]) (used + 2) st1
      | none => st1
    tryMatchFrom w (d :: rest2) path used st2

/-- `find_closest_match(word)`: run the search from position 0 with empty path
and return the accumulated `best_solutions`. -/
def findClosestMatch (word : String) : List (List String × Nat × List Char) :=
  (tryMatchFrom (low word) (low word) [] 0 ⟨none, []⟩).best

/-- The dictionary returned by `spell_word`. -/
structure SpellResult where
  word : String
  can_be_spelled : Bool
  exact_solutions : List (List String)
  closest_matches : List (List String × Nat × List Char)
deriving DecidableEq

/-- `spell_word(word)`. -/
def spellWord (word : String) : SpellResult :=
  let exact := findAllSpellings word
  let closest := findClosestMatch word
  { word := word
    can_be_spelled := decide (0 < exact.length)
    exact_solutions := exact
    closest_matches := if exact = [] then closest else [] }

/-- The completed paths (leaves) of the `try_partial_match` search tree, as
`(current_path, letters_used)` pairs, in DFS traversal order: at each
position the length-1 branch, then the length-2 branch, then the skip
branch — the same branch order as `tryMatchFrom`, with the state threading
removed. -/
def pmLeaves : List Char → List String → Nat → List (List String × Nat)
  | [], path, used => [(path, used)]
  | [c], path, used =>
    (match findElement [c] with
     | some sym => pmLeaves [] (path ++ [sym]) (used + 1)
     | none => []) ++
    pmLeaves [] path used
  | c :: d :: rest2, path, used =>
    (match findElement [c] with
     | some sym => pmLeaves (d :: rest2) (path ++ [sym]) (used + 1)
     | none => []) ++
    ((match findElement [c, d] with
      | some sym => pmLeaves rest2 (path ++ [sym]) (used + 2)
      | none => []) ++
     pmLeaves (d :: rest2) path used)

/-- Running minimum of `len(word) - letters_used` over a list of leaves,
seeded with `m`. -/
def runMin (w : List Char) (m : Nat) (L : List (List String × Nat)) : Nat :=
  L.foldl (fun a l => min a (w.length - l.2)) m

/-- The minimum number of missing letters over all partial tilings explored by
the closest-match search on `word`.  (The seed `(low word).length` is the
missing count of the all-skip leaf, which the search always contains, so it
does not distort the minimum.) -/
def bestMissing (word : String) : Nat :=
  runMin (low word) (low word).length (pmLeaves (low word) [] 0)

/-- Total number of characters in a tiling's symbols
(`sum(len(symbol) for symbol in tiling)`). -/
def symLen (ts : List String) : Nat := (ts.map (fun s => s.data.length)).sum

/-! ### Basic lemmas on the character maps and the alphabet lookup -/

lemma toNat_ofNat_of_lt {n : Nat} (h : n < 55296) : (Char.ofNat n).toNat = n := by
  simp [Char.ofNat, Nat.isValidChar, h, Char.toNat, Char.ofNatAux, UInt32.toNat,
    UInt32.ofNatCore]

lemma pyLower_idem (c : Char) : pyLower (pyLower c) = pyLower c := by
  unfold pyLower
  by_cases h : 65 ≤ c.toNat ∧ c.toNat ≤ 90
  · have hv : c.toNat + 32 < 55296 := by omega
    rw [if_pos h, if_neg (by rw [toNat_ofNat_of_lt hv]; omega)]
  · rw [if_neg h, if_neg h]

lemma map_pyLower_idem (l : List Char) : (l.map pyLower).map pyLower = l.map pyLower := by
  simp only [List.map_map, Function.comp]
  exact List.map_congr_left (fun c _ => pyLower_idem c)

lemma low_map_pyLower (s : String) : (low s).map pyLower = low s :=
  map_pyLower_idem s.data

lemma findElement_low {chunk : List Char} {sym : String}
    (h : findElement chunk = some sym) : low sym = chunk := by
  have := List.find?_some h
  simpa using this

lemma low_length (s : String) : (low s).length = s.data.length := by
  simp [low]

lemma findElement_length {chunk : List Char} {sym : String}
    (h : findElement chunk = some sym) : sym.data.length = chunk.length := by
  have h1 := findElement_low h
  calc sym.data.length = (low sym).length := (low_length sym).symm
    _ = chunk.length := by rw [h1]

/-! ### The missing-letter calculator as a multiset difference -/

lemma removeFirst_eq_erase (l : List Char) (x : Char) : removeFirst l x = l.erase x := by
  induction l with
  | nil => rfl
  | cons y ys ih =>
    by_cases h : y = x
    · simp [removeFirst, h, List.erase_cons]
    · simp [removeFirst, h, List.erase_cons, ih]

lemma removeMatched_coe (covered : List Char) :
    ∀ wr : List Char, (removeMatched wr covered : Multiset Char) =
      (wr : Multiset Char) - (covered : Multiset Char) := by
  induction covered with
  | nil => intro wr; simp [removeMatched]
  | cons c cs ih =>
    intro wr
    have hstep : removeMatched wr (c :: cs) =
        removeMatched (if c ∈ wr then removeFirst wr c else wr) cs := by
      simp [removeMatched]
    rw [hstep, ih]
    have hcoe : ((if c ∈ wr then removeFirst wr c else wr : List Char) : Multiset Char) =
        (wr : Multiset Char).erase c := by
      by_cases h : c ∈ wr
      · simp [h, removeFirst_eq_erase, Multiset.coe_erase]
      · have herase : ((wr : Multiset Char)).erase c = (wr : Multiset Char) :=
          Multiset.erase_of_not_mem (by simpa using h)
        simp [h, herase]
    rw [hcoe]
    have : ((c :: cs : List Char) : Multiset Char) = c ::ₘ (cs : Multiset Char) := rfl
    rw [this, Multiset.sub_cons]

lemma findMissingLetters_coe (w : List Char) (sol : List String) :
    (findMissingLetters w sol : Multiset Char) =
      Multiset.map pyUpper
        ((Multiset.map pyLower (w : Multiset Char)) - (lowConcat sol : Multiset Char)) := by
  unfold findMissingLetters
  have h1 : ((removeMatched (w.map pyLower) (lowConcat sol)).map pyUpper : Multiset Char) =
      Multiset.map pyUpper ↑(removeMatched (w.map pyLower) (lowConcat sol)) := by
    simp
  rw [h1, removeMatched_coe]
  simp

lemma lowConcat_length (sol : List String) : (lowConcat sol).length = symLen sol := by
  induction sol with
  | nil => rfl
  | cons s rest ih =>
    have hc : lowConcat (s :: rest) = low s ++ lowConcat rest := rfl
    rw [hc, List.length_append, ih, low_length]
    simp [symLen]

lemma findMissingLetters_length {w : List Char} {sol : List String}
    (h : (lowConcat sol : Multiset Char) ≤ ((w.map pyLower : List Char) : Multiset Char)) :
    (findMissingLetters w sol).length = w.length - symLen sol := by
  have hcard : (findMissingLetters w sol : Multiset Char).card =
      (findMissingLetters w sol).length := by simp
  rw [findMissingLetters_coe] at hcard
  have hmap : Multiset.map pyLower (w : Multiset Char) =
      ((w.map pyLower : List Char) : Multiset Char) := by simp
  rw [hmap] at hcard
  rw [Multiset.card_map, Multiset.card_sub h] at hcard
  simp only [Multiset.coe_card, List.length_map] at hcard
  rw [← hcard, lowConcat_length]

lemma findMissingLetters_nil {w : List Char} {sol : List String}
    (h : (lowConcat sol : Multiset Char) = ((w.map pyLower : List Char) : Multiset Char)) :
    findMissingLetters w sol = [] := by
  have hm : (findMissingLetters w sol : Multiset Char) = 0 := by
    rw [findMissingLetters_coe]
    have hmap : Multiset.map pyLower (w : Multiset Char) =
        ((w.map pyLower : List Char) : Multiset Char) := by simp
    rw [hmap, ← h]
    simp
  exact (Multiset.coe_eq_zero _).mp hm


/-! ### Unfolding equations for the recursive searches (the `match` on the
remaining suffix makes the generated equations awkward, so we state the
one-character and two-or-more-character cases by hand; each is `rfl`). -/

lemma backtrack_one (c : Char) :
    backtrack [c] =
      (match findElement [c] with
       | some sym => (backtrack []).map (fun t => sym :: t)
       | none => []) := rfl

lemma backtrack_two (c d : Char) (rest2 : List Char) :
    backtrack (c :: d :: rest2) =
      (match findElement [c] with
       | some sym => (backtrack (d :: rest2)).map (fun t => sym :: t)
       | none => []) ++
      (match findElement [c, d] with
       | some sym => (backtrack rest2).map (fun t => sym :: t)
       | none => []) := rfl

lemma pmLeaves_one (c : Char) (path : List String) (used : Nat) :
    pmLeaves [c] path used =
      (match findElement [c] with
       | some sym => pmLeaves [] (path ++ [sym]) (used + 1)
       | none => []) ++
      pmLeaves [] path used := rfl

lemma pmLeaves_two (c d : Char) (rest2 : List Char) (path : List String) (used : Nat) :
    pmLeaves (c :: d :: rest2) path used =
      (match findElement [c] with
       | some sym => pmLeaves (d :: rest2) (path ++ [sym]) (used + 1)
       | none => []) ++
      ((match findElement [c, d] with
        | some sym => pmLeaves rest2 (path ++ [sym]) (used + 2)
        | none => []) ++
       pmLeaves (d :: rest2) path used) := rfl

lemma tryMatchFrom_one (w : List Char) (c : Char) (path : List String) (used : Nat)
    (st : MatchState) :
    tryMatchFrom w [c] path used st =
      tryMatchFrom w [] path used
        (match findElement [c] with
         | some sym => tryMatchFrom w [] (path ++ [sym]) (used + 1) st
         | none => st) := rfl

lemma tryMatchFrom_two (w : List Char) (c d : Char) (rest2 : List Char)
    (path : List String) (used : Nat) (st : MatchState) :
    tryMatchFrom w (c :: d :: rest2) path used st =
      tryMatchFrom w (d :: rest2) path used
        (match findElement [c, d] with
         | some sym =>
           tryMatchFrom w rest2 (path ++ [sym]) (used + 2)
             (match findElement [c] with
              | some sym1 => tryMatchFrom w (d :: rest2) (path ++ [sym1]) (used + 1) st
              | none => st)
         | none =>
           match findElement [c] with
           | some sym1 => tryMatchFrom w (d :: rest2) (path ++ [sym1]) (used + 1) st
           | none => st) := rfl

/-! ### The round-trip property of the exact decomposer -/

lemma backtrack_concat : ∀ (n : Nat) (rem : List Char), rem.length ≤ n →
    ∀ t ∈ backtrack rem, lowConcat t = rem := by
  intro n
  induction n with
  | zero =>
    intro rem h t ht
    have hl : rem = [] := List.eq_nil_of_length_eq_zero (Nat.le_zero.mp h)
    subst hl
    simp only [backtrack, List.mem_singleton] at ht
    subst ht
    rfl
  | succ n ih =>
    intro rem h t ht
    cases rem with
    | nil =>
      simp only [backtrack, List.mem_singleton] at ht
      subst ht
      rfl
    | cons c rest =>
      cases rest with
      | nil =>
        rw [backtrack_one] at ht
        split at ht
        next sym hfe =>
          rcases List.mem_map.mp ht with ⟨t', ht', rfl⟩
          have ht'' : t' = [] := by
            simpa only [backtrack, List.mem_singleton] using ht'
          subst ht''
          have hc : lowConcat [sym] = low sym := by simp [lowConcat]
          rw [hc, findElement_low hfe]
        next => simp at ht
      | cons d rest2 =>
        rw [backtrack_two] at ht
        rcases List.mem_append.mp ht with h1 | h2
        · split at h1
          next sym hfe =>
            rcases List.mem_map.mp h1 with ⟨t', ht', rfl⟩
            have hlen : (d :: rest2).length ≤ n := by
              simp only [List.length_cons] at h ⊢; omega
            have hsub := ih (d :: rest2) hlen t' ht'
            have hc : lowConcat (sym :: t') = low sym ++ lowConcat t' := rfl
            rw [hc, hsub, findElement_low hfe]
            rfl
          next => simp at h1
        · split at h2
          next sym hfe =>
            rcases List.mem_map.mp h2 with ⟨t', ht', rfl⟩
            have hlen : rest2.length ≤ n := by
              simp only [List.length_cons] at h; omega
            have hsub := ih rest2 hlen t' ht'
            have hc : lowConcat (sym :: t') = low sym ++ lowConcat t' := rfl
            rw [hc, hsub, findElement_low hfe]
            rfl
          next => simp at h2

/-! ### Invariants of the closest-match search tree -/

lemma pmLeaves_ne_nil : ∀ (n : Nat) (rem : List Char), rem.length ≤ n →
    ∀ (path : List String) (used : Nat), pmLeaves rem path used ≠ [] := by
  intro n
  induction n with
  | zero =>
    intro rem h path used
    have hl : rem = [] := List.eq_nil_of_length_eq_zero (Nat.le_zero.mp h)
    subst hl
    simp [pmLeaves]
  | succ n ih =>
    intro rem h path used
    cases rem with
    | nil => simp [pmLeaves]
    | cons c rest =>
      cases rest with
      | nil =>
        rw [pmLeaves_one]
        intro hEq
        rcases List.append_eq_nil.mp hEq with ⟨-, h2⟩
        simp [pmLeaves] at h2
      | cons d rest2 =>
        rw [pmLeaves_two]
        intro hEq
        rcases List.append_eq_nil.mp hEq with ⟨-, h2⟩
        rcases List.append_eq_nil.mp h2 with ⟨-, h3⟩
        have hlen : (d :: rest2).length ≤ n := by
          simp only [List.length_cons] at h ⊢; omega
        exact ih (d :: rest2) hlen path used h3

lemma pmLeaves_used_le : ∀ (n : Nat) (rem : List Char), rem.length ≤ n →
    ∀ (path : List String) (used : Nat), ∀ l ∈ pmLeaves rem path used,
      l.2 ≤ used + rem.length := by
  intro n
  induction n with
  | zero =>
    intro rem h path used l hl
    have he : rem = [] := List.eq_nil_of_length_eq_zero (Nat.le_zero.mp h)
    subst he
    simp only [pmLeaves, List.mem_singleton] at hl
    subst hl
    simp
  | succ n ih =>
    intro rem h path used l hl
    cases rem with
    | nil =>
      simp only [pmLeaves, List.mem_singleton] at hl
      subst hl
      simp
    | cons c rest =>
      cases rest with
      | nil =>
        rw [pmLeaves_one] at hl
        rcases List.mem_append.mp hl with h1 | h2
        · split at h1
          next sym hfe =>
            have := ih [] (by simp) (path ++ [sym]) (used + 1) l h1
            simp only [List.length_cons, List.length_nil] at this ⊢
            omega
          next => simp at h1
        · have := ih [] (by simp) path used l h2
          simp only [List.length_cons, List.length_nil] at this ⊢
          omega
      | cons d rest2 =>
        have hlen1 : (d :: rest2).length ≤ n := by
          simp only [List.length_cons] at h ⊢; omega
        have hlen2 : rest2.length ≤ n := by
          simp only [List.length_cons] at h; omega
        rw [pmLeaves_two] at hl
        rcases List.mem_append.mp hl with h1 | h23
        · split at h1
          next sym hfe =>
            have := ih (d :: rest2) hlen1 (path ++ [sym]) (used + 1) l h1
            simp only [List.length_cons] at this ⊢
            omega
          next => simp at h1
        · rcases List.mem_append.mp h23 with h2 | h3
          · split at h2
            next sym hfe =>
              have := ih rest2 hlen2 (path ++ [sym]) (used + 2) l h2
              simp only [List.length_cons] at this ⊢
              omega
            next => simp at h2
          · have := ih (d :: rest2) hlen1 path used l h3
            simp only [List.length_cons] at this ⊢
            omega

lemma symLen_append_one (path : List String) (sym : String) :
    symLen (path ++ [sym]) = symLen path + sym.data.length := by
  simp [symLen]

lemma pmLeaves_symLen : ∀ (n : Nat) (rem : List Char), rem.length ≤ n →
    ∀ (path : List String) (used : Nat), symLen path = used →
      ∀ l ∈ pmLeaves rem path used, symLen l.1 = l.2 := by
  intro n
  induction n with
  | zero =>
    intro rem h path used hpu l hl
    have he : rem = [] := List.eq_nil_of_length_eq_zero (Nat.le_zero.mp h)
    subst he
    simp only [pmLeaves, List.mem_singleton] at hl
    subst hl
    exact hpu
  | succ n ih =>
    intro rem h path used hpu l hl
    cases rem with
    | nil =>
      simp only [pmLeaves, List.mem_singleton] at hl
      subst hl
      exact hpu
    | cons c rest =>
      cases rest with
      | nil =>
        rw [pmLeaves_one] at hl
        rcases List.mem_append.mp hl with h1 | h2
        · split at h1
          next sym hfe =>
            have hlen : sym.data.length = 1 := by
              simpa using findElement_length hfe
            have hpu1 : symLen (path ++ [sym]) = used + 1 := by
              rw [symLen_append_one, hpu, hlen]
            exact ih [] (by simp) (path ++ [sym]) (used + 1) hpu1 l h1
          next => simp at h1
        · exact ih [] (by simp) path used hpu l h2
      | cons d rest2 =>
        have hlen1 : (d :: rest2).length ≤ n := by
          simp only [List.length_cons] at h ⊢; omega
        have hlen2 : rest2.length ≤ n := by
          simp only [List.length_cons] at h; omega
        rw [pmLeaves_two] at hl
        rcases List.mem_append.mp hl with h1 | h23
        · split at h1
          next sym hfe =>
            have hsl : sym.data.length = 1 := by
              simpa using findElement_length hfe
            have hpu1 : symLen (path ++ [sym]) = used + 1 := by
              rw [symLen_append_one, hpu, hsl]
            exact ih (d :: rest2) hlen1 (path ++ [sym]) (used + 1) hpu1 l h1
          next => simp at h1
        · rcases List.mem_append.mp h23 with h2 | h3
          · split at h2
            next sym hfe =>
              have hsl : sym.data.length = 2 := by
                simpa using findElement_length hfe
              have hpu2 : symLen (path ++ [sym]) = used + 2 := by
                rw [symLen_append_one, hpu, hsl]
              exact ih rest2 hlen2 (path ++ [sym]) (used + 2) hpu2 l h2
            next => simp at h2
          · exact ih (d :: rest2) hlen1 path used hpu l h3

lemma lowConcat_cons (sym : String) (ts : List String) :
    lowConcat (sym :: ts) = low sym ++ lowConcat ts := rfl

lemma pmLeaves_covered_le : ∀ (n : Nat) (rem : List Char), rem.length ≤ n →
    ∀ (path : List String) (used : Nat), ∀ l ∈ pmLeaves rem path used,
      ∃ ext, l.1 = path ++ ext ∧
        (lowConcat ext : Multiset Char) ≤ (rem : Multiset Char) := by
  intro n
  induction n with
  | zero =>
    intro rem h path used l hl
    have he : rem = [] := List.eq_nil_of_length_eq_zero (Nat.le_zero.mp h)
    subst he
    simp only [pmLeaves, List.mem_singleton] at hl
    subst hl
    exact ⟨[], by simp, by simp [lowConcat]⟩
  | succ n ih =>
    intro rem h path used l hl
    cases rem with
    | nil =>
      simp only [pmLeaves, List.mem_singleton] at hl
      subst hl
      exact ⟨[], by simp, by simp [lowConcat]⟩
    | cons c rest =>
      cases rest with
      | nil =>
        rw [pmLeaves_one] at hl
        rcases List.mem_append.mp hl with h1 | h2
        · split at h1
          next sym hfe =>
            rcases ih [] (by simp) (path ++ [sym]) (used + 1) l h1 with ⟨ext, hext, hle⟩
            refine ⟨sym :: ext, ?_, ?_⟩
            · rw [hext]; simp
            · have hz : lowConcat ext = [] := by
                have h0 : ((lowConcat ext : List Char) : Multiset Char) = 0 :=
                  le_antisymm (by simpa using hle) (Multiset.zero_le _)
                exact (Multiset.coe_eq_zero _).mp h0
              rw [lowConcat_cons, findElement_low hfe, hz]
              simp
          next => simp at h1
        · rcases ih [] (by simp) path used l h2 with ⟨ext, hext, hle⟩
          refine ⟨ext, hext, le_trans hle ?_⟩
          exact le_trans (by simp) (Multiset.zero_le _)
      | cons d rest2 =>
        have hlen1 : (d :: rest2).length ≤ n := by
          simp only [List.length_cons] at h ⊢; omega
        have hlen2 : rest2.length ≤ n := by
          simp only [List.length_cons] at h; omega
        rw [pmLeaves_two] at hl
        rcases List.mem_append.mp hl with h1 | h23
        · split at h1
          next sym hfe =>
            rcases ih (d :: rest2) hlen1 (path ++ [sym]) (used + 1) l h1 with ⟨ext, hext, hle⟩
            refine ⟨sym :: ext, ?_, ?_⟩
            · rw [hext]; simp
            · rw [lowConcat_cons, findElement_low hfe]
              have hc : (([c] ++ lowConcat ext : List Char) : Multiset Char) =
                  c ::ₘ (lowConcat ext : Multiset Char) := rfl
              rw [hc]
              have hr : ((c :: d :: rest2 : List Char) : Multiset Char) =
                  c ::ₘ ((d :: rest2 : List Char) : Multiset Char) := rfl
              rw [hr]
              exact Multiset.cons_le_cons c hle
          next => simp at h1
        · rcases List.mem_append.mp h23 with h2 | h3
          · split at h2
            next sym hfe =>
              rcases ih rest2 hlen2 (path ++ [sym]) (used + 2) l h2 with ⟨ext, hext, hle⟩
              refine ⟨sym :: ext, ?_, ?_⟩
              · rw [hext]; simp
              · rw [lowConcat_cons, findElement_low hfe]
                have hc : (([c, d] ++ lowConcat ext : List Char) : Multiset Char) =
                    c ::ₘ d ::ₘ (lowConcat ext : Multiset Char) := rfl
                rw [hc]
                have hr : ((c :: d :: rest2 : List Char) : Multiset Char) =
                    c ::ₘ d ::ₘ (rest2 : Multiset Char) := rfl
                rw [hr]
                exact Multiset.cons_le_cons c (Multiset.cons_le_cons d hle)
            next => simp at h2
          · rcases ih (d :: rest2) hlen1 path used l h3 with ⟨ext, hext, hle⟩
            refine ⟨ext, hext, le_trans hle ?_⟩
            have hr : ((c :: d :: rest2 : List Char) : Multiset Char) =
                c ::ₘ ((d :: rest2 : List Char) : Multiset Char) := rfl
            rw [hr]
            exact Multiset.le_cons_self _ c

/-! ### The zero-skip leaves are exactly the exact tilings, in order -/

lemma pmLeaves_filter_exact : ∀ (n : Nat) (rem : List Char), rem.length ≤ n →
    ∀ (path : List String) (used : Nat),
      (pmLeaves rem path used).filter (fun l => l.2 == used + rem.length) =
        (backtrack rem).map (fun t => (path ++ t, used + rem.length)) := by
  intro n
  induction n with
  | zero =>
    intro rem h path used
    have he : rem = [] := List.eq_nil_of_length_eq_zero (Nat.le_zero.mp h)
    subst he
    simp [pmLeaves, backtrack]
  | succ n ih =>
    intro rem h path used
    cases rem with
    | nil => simp [pmLeaves, backtrack]
    | cons c rest =>
      cases rest with
      | nil =>
        have hskip : (pmLeaves [] path used).filter
            (fun l => l.2 == used + ([c] : List Char).length) = [] := by
          refine List.filter_eq_nil_iff.mpr ?_
          intro l hl
          have hle := pmLeaves_used_le 0 [] (by simp) path used l hl
          simp only [List.length_nil, Nat.add_zero] at hle
          simp only [List.length_cons, List.length_nil, beq_iff_eq]
          omega
        rw [pmLeaves_one, backtrack_one, List.filter_append, hskip, List.append_nil]
        cases hfe : findElement [c] with
        | some sym =>
          simp only [hfe]
          have hIH := ih [] (by simp) (path ++ [sym]) (used + 1)
          simp only [List.length_nil, Nat.add_zero] at hIH
          have harith : used + ([c] : List Char).length = used + 1 := by simp
          rw [harith, hIH]
          simp [List.map_map, Function.comp]
        | none => simp [hfe]
      | cons d rest2 =>
        have hlen1 : (d :: rest2).length ≤ n := by
          simp only [List.length_cons] at h ⊢; omega
        have hlen2 : rest2.length ≤ n := by
          simp only [List.length_cons] at h; omega
        have hskip : (pmLeaves (d :: rest2) path used).filter
            (fun l => l.2 == used + (c :: d :: rest2 : List Char).length) = [] := by
          refine List.filter_eq_nil_iff.mpr ?_
          intro l hl
          have hle := pmLeaves_used_le (n + 1) (d :: rest2)
            (le_trans hlen1 (Nat.le_succ n)) path used l hl
          simp only [List.length_cons] at hle ⊢
          simp only [beq_iff_eq]
          omega
        rw [pmLeaves_two, backtrack_two, List.filter_append, List.filter_append, hskip,
          List.append_nil, List.map_append]
        congr 1
        · cases hfe : findElement [c] with
          | some sym =>
            simp only [hfe]
            have hIH := ih (d :: rest2) hlen1 (path ++ [sym]) (used + 1)
            have harith : used + (c :: d :: rest2 : List Char).length =
                (used + 1) + (d :: rest2 : List Char).length := by
              simp only [List.length_cons]; omega
            rw [harith, hIH]
            simp [List.map_map, Function.comp]
          | none => simp [hfe]
        · cases hfe : findElement [c, d] with
          | some sym =>
            simp only [hfe]
            have hIH := ih rest2 hlen2 (path ++ [sym]) (used + 2)
            have harith : used + (c :: d :: rest2 : List Char).length =
                (used + 2) + rest2.length := by
              simp only [List.length_cons]; omega
            rw [harith, hIH]
            simp [List.map_map, Function.comp]
          | none => simp [hfe]

/-! ### The state-threaded search is the fold of `leafStep` over the leaves -/

lemma tryMatchFrom_eq_foldl (w : List Char) : ∀ (n : Nat) (rem : List Char), rem.length ≤ n →
    ∀ (path : List String) (used : Nat) (st : MatchState),
      tryMatchFrom w rem path used st = (pmLeaves rem path used).foldl (leafStep w) st := by
  intro n
  induction n with
  | zero =>
    intro rem h path used st
    have he : rem = [] := List.eq_nil_of_length_eq_zero (Nat.le_zero.mp h)
    subst he
    rfl
  | succ n ih =>
    intro rem h path used st
    cases rem with
    | nil => rfl
    | cons c rest =>
      cases rest with
      | nil =>
        rw [tryMatchFrom_one, pmLeaves_one, List.foldl_append]
        cases hfe : findElement [c] with
        | some sym =>
          simp only [hfe]
          rw [ih [] (by simp) (path ++ [sym]) (used + 1) st,
            ih [] (by simp) path used _]
        | none =>
          simp only [hfe, List.foldl_nil]
          rw [ih [] (by simp) path used st]
      | cons d rest2 =>
        have hlen1 : (d :: rest2).length ≤ n := by
          simp only [List.length_cons] at h ⊢; omega
        have hlen2 : rest2.length ≤ n := by
          simp only [List.length_cons] at h; omega
        rw [tryMatchFrom_two, pmLeaves_two, List.foldl_append, List.foldl_append]
        cases hfe2 : findElement [c, d] with
        | some sym2 =>
          cases hfe1 : findElement [c] with
          | some sym1 =>
            simp only [hfe1, hfe2]
            rw [ih (d :: rest2) hlen1 (path ++ [sym1]) (used + 1) st,
              ih rest2 hlen2 (path ++ [sym2]) (used + 2) _,
              ih (d :: rest2) hlen1 path used _]
          | none =>
            simp only [hfe1, hfe2, List.foldl_nil]
            rw [ih rest2 hlen2 (path ++ [sym2]) (used + 2) st,
              ih (d :: rest2) hlen1 path used _]
        | none =>
          cases hfe1 : findElement [c] with
          | some sym1 =>
            simp only [hfe1, hfe2, List.foldl_nil]
            rw [ih (d :: rest2) hlen1 (path ++ [sym1]) (used + 1) st,
              ih (d :: rest2) hlen1 path used _]
          | none =>
            simp only [hfe1, hfe2, List.foldl_nil]
            rw [ih (d :: rest2) hlen1 path used st]

/-! ### Characterizing the fold of `leafStep`: the accumulated best solutions
are exactly the minimum-missing leaves, in traversal order -/

lemma runMin_nil (w : List Char) (m : Nat) : runMin w m [] = m := rfl

lemma runMin_cons (w : List Char) (m : Nat) (l : List String × Nat)
    (L : List (List String × Nat)) :
    runMin w m (l :: L) = runMin w (min m (w.length - l.2)) L := rfl

lemma runMin_le_seed (w : List Char) :
    ∀ (L : List (List String × Nat)) (m : Nat), runMin w m L ≤ m := by
  intro L
  induction L with
  | nil => intro m; exact le_of_eq (runMin_nil w m)
  | cons l L' ih =>
    intro m
    rw [runMin_cons]
    exact le_trans (ih _) (Nat.min_le_left _ _)

lemma runMin_le_mem (w : List Char) :
    ∀ (L : List (List String × Nat)) (m : Nat), ∀ l ∈ L,
      runMin w m L ≤ w.length - l.2 := by
  intro L
  induction L with
  | nil => intro m l hl; simp at hl
  | cons l0 L' ih =>
    intro m l hl
    rw [runMin_cons]
    rcases List.mem_cons.mp hl with rfl | hl'
    · exact le_trans (runMin_le_seed w L' _) (Nat.min_le_right _ _)
    · exact ih _ l hl'

lemma leafStep_none (w : List Char) (b : List (List String × Nat × List Char))
    (l : List String × Nat) :
    leafStep w ⟨none, b⟩ l = ⟨some (w.length - l.2), [mkEntry w l]⟩ := by
  simp [leafStep, leqInf, ltInf]

lemma leafStep_some_lt {w : List Char} {m : Nat} {b : List (List String × Nat × List Char)}
    {l : List String × Nat} (h : w.length - l.2 < m) :
    leafStep w ⟨some m, b⟩ l = ⟨some (w.length - l.2), [mkEntry w l]⟩ := by
  have hle : leqInf (w.length - l.2) (some m) = true := by
    simp only [leqInf, decide_eq_true_eq]; omega
  have hlt : ltInf (w.length - l.2) (some m) = true := by
    simp only [ltInf, decide_eq_true_eq]; omega
  simp [leafStep, hle, hlt]

lemma leafStep_some_eq {w : List Char} {m : Nat} {b : List (List String × Nat × List Char)}
    {l : List String × Nat} (h : w.length - l.2 = m) :
    leafStep w ⟨some m, b⟩ l = ⟨some m, b ++ [mkEntry w l]⟩ := by
  have hle : leqInf (w.length - l.2) (some m) = true := by
    simp only [leqInf, decide_eq_true_eq]; omega
  have hlt : ltInf (w.length - l.2) (some m) = false := by
    simp only [ltInf, decide_eq_false_iff_not]; omega
  simp [leafStep, hle, hlt]

lemma leafStep_some_gt {w : List Char} {m : Nat} {b : List (List String × Nat × List Char)}
    {l : List String × Nat} (h : m < w.length - l.2) :
    leafStep w ⟨some m, b⟩ l = ⟨some m, b⟩ := by
  have hle : leqInf (w.length - l.2) (some m) = false := by
    simp only [leqInf, decide_eq_false_iff_not]; omega
  simp [leafStep, hle]

lemma foldl_leafStep_some (w : List Char) :
    ∀ (L : List (List String × Nat)) (m : Nat) (b : List (List String × Nat × List Char)),
      L.foldl (leafStep w) ⟨some m, b⟩ =
        ⟨some (runMin w m L),
         (if runMin w m L < m then [] else b) ++
           (L.filter (fun l => w.length - l.2 == runMin w m L)).map (mkEntry w)⟩ := by
  intro L
  induction L with
  | nil =>
    intro m b
    simp [runMin_nil]
  | cons l L' ih =>
    intro m b
    have hR' : runMin w m (l :: L') = runMin w (min m (w.length - l.2)) L' := runMin_cons ..
    rcases lt_trichotomy (w.length - l.2) m with hlt | heq | hgt
    · rw [List.foldl_cons, leafStep_some_lt hlt, ih]
      have hmin : min m (w.length - l.2) = w.length - l.2 := by omega
      rw [hR', hmin]
      have hRle : runMin w (w.length - l.2) L' ≤ w.length - l.2 := runMin_le_seed w L' _
      have hcondR : runMin w (w.length - l.2) L' < m := lt_of_le_of_lt hRle hlt
      rw [if_pos hcondR, List.nil_append]
      rcases eq_or_lt_of_le hRle with hR1 | hR1
      · rw [if_neg (by omega)]
        have htrue : (w.length - l.2 == runMin w (w.length - l.2) L') = true := by
          simp only [beq_iff_eq]; omega
        simp [List.filter_cons, htrue]
      · rw [if_pos hR1]
        have hfalse : (w.length - l.2 == runMin w (w.length - l.2) L') = false := by
          simp only [beq_eq_false_iff_ne]; omega
        simp [List.filter_cons, hfalse]
    · rw [List.foldl_cons, leafStep_some_eq heq, ih]
      have hmin : min m (w.length - l.2) = m := by omega
      rw [hR', hmin]
      have hRle : runMin w m L' ≤ m := runMin_le_seed w L' m
      rcases eq_or_lt_of_le hRle with hR1 | hR1
      · rw [if_neg (by omega), if_neg (by omega)]
        have htrue : (w.length - l.2 == runMin w m L') = true := by
          simp only [beq_iff_eq]; omega
        simp [List.filter_cons, htrue]
      · rw [if_pos hR1, if_pos hR1, List.nil_append, List.nil_append]
        have hfalse : (w.length - l.2 == runMin w m L') = false := by
          simp only [beq_eq_false_iff_ne]; omega
        simp [List.filter_cons, hfalse]
    · rw [List.foldl_cons, leafStep_some_gt hgt, ih]
      have hmin : min m (w.length - l.2) = m := by omega
      rw [hR', hmin]
      have hRle : runMin w m L' ≤ m := runMin_le_seed w L' m
      have hfalse : (w.length - l.2 == runMin w m L') = false := by
        simp only [beq_eq_false_iff_ne]; omega
      simp [List.filter_cons, hfalse]

/-! ### The closest-match result as a filter of the leaf list -/

lemma findClosestMatch_eq_filter (word : String) :
    findClosestMatch word =
      ((pmLeaves (low word) [] 0).filter
        (fun l => (low word).length - l.2 == bestMissing word)).map (mkEntry (low word)) := by
  unfold findClosestMatch
  rw [tryMatchFrom_eq_foldl (low word) (low word).length (low word) le_rfl [] 0 _]
  cases hpm : pmLeaves (low word) [] 0 with
  | nil => exact absurd hpm (pmLeaves_ne_nil (low word).length (low word) le_rfl [] 0)
  | cons l0 L' =>
    rw [List.foldl_cons, leafStep_none, foldl_leafStep_some]
    have hm0 : (low word).length - l0.2 ≤ (low word).length := Nat.sub_le _ _
    have hbm : bestMissing word = runMin (low word) ((low word).length - l0.2) L' := by
      unfold bestMissing
      rw [hpm, runMin_cons]
      congr 1
      omega
    rw [hbm]
    have hRle : runMin (low word) ((low word).length - l0.2) L' ≤ (low word).length - l0.2 :=
      runMin_le_seed (low word) L' _
    rcases eq_or_lt_of_le hRle with hR1 | hR1
    · have htrue : ((low word).length - l0.2 ==
          runMin (low word) ((low word).length - l0.2) L') = true := by
        simp only [beq_iff_eq]; omega
      rw [if_neg (by omega)]
      simp [List.filter_cons, htrue]
    · have hfalse : ((low word).length - l0.2 ==
          runMin (low word) ((low word).length - l0.2) L') = false := by
        simp only [beq_eq_false_iff_ne]; omega
      rw [if_pos hR1]
      simp [List.filter_cons, hfalse]

lemma runMin_attained (w : List Char) : ∀ (L : List (List String × Nat)) (m : Nat),
    runMin w m L = m ∨ ∃ l ∈ L, runMin w m L = w.length - l.2 := by
  intro L
  induction L with
  | nil => intro m; left; rfl
  | cons l0 L' ih =>
    intro m
    rw [runMin_cons]
    rcases ih (min m (w.length - l0.2)) with h | ⟨l, hl, hEq⟩
    · rcases le_or_lt m (w.length - l0.2) with hle | hlt
      · left; rw [h]; omega
      · right
        refine ⟨l0, List.mem_cons_self l0 L', ?_⟩
        rw [h]; omega
    · right; exact ⟨l, List.mem_cons_of_mem l0 hl, hEq⟩

lemma bestMissing_attained (word : String) :
    ∃ l ∈ pmLeaves (low word) [] 0, (low word).length - l.2 = bestMissing word := by
  cases hpm : pmLeaves (low word) [] 0 with
  | nil => exact absurd hpm (pmLeaves_ne_nil (low word).length (low word) le_rfl [] 0)
  | cons l0 L' =>
    have hbm : bestMissing word = runMin (low word) ((low word).length - l0.2) L' := by
      unfold bestMissing
      rw [hpm, runMin_cons]
      congr 1
      have : (low word).length - l0.2 ≤ (low word).length := Nat.sub_le _ _
      omega
    rcases runMin_attained (low word) L' ((low word).length - l0.2) with h | ⟨l, hl, hEq⟩
    · exact ⟨l0, List.mem_cons_self l0 L', by rw [hbm, h]⟩
    · exact ⟨l, List.mem_cons_of_mem l0 hl, by rw [hbm, hEq]⟩

lemma bestMissing_le (word : String) :
    ∀ l ∈ pmLeaves (low word) [] 0, bestMissing word ≤ (low word).length - l.2 := by
  intro l hl
  exact runMin_le_mem (low word) (pmLeaves (low word) [] 0) (low word).length l hl

lemma findClosestMatch_ne_nil_aux (word : String) : findClosestMatch word ≠ [] := by
  rw [findClosestMatch_eq_filter]
  rcases bestMissing_attained word with ⟨l, hl, hEq⟩
  have hmem : l ∈ (pmLeaves (low word) [] 0).filter
      (fun l => (low word).length - l.2 == bestMissing word) := by
    rw [List.mem_filter]
    exact ⟨hl, by simp only [beq_iff_eq]; omega⟩
  intro hnil
  rw [List.map_eq_nil_iff] at hnil
  rw [hnil] at hmem
  simp at hmem

/-! ### Claim theorems -/

/-- C1 (counterexample): the spec's scenario for `spell("Xyz")` is wrong on the
code: `"Y"` (yttrium) is a valid symbol, so the closest-match list does not
contain the entry `([], 3, ["X","Y","Z"])` claimed by the spec (even though
`canSpell` is indeed false). -/
theorem spell_Xyz_spec_claim_false :
    ¬ ((spellWord "Xyz").can_be_spelled = false ∧
       (([], 3, ['X', 'Y', 'Z']) : List String × Nat × List Char) ∈
         (spellWord "Xyz").closest_matches) := by
  decide

/-- C1 (amended): `spell("Xyz")` returns `canSpell = false`, and its
closest-match list is exactly `[(["Y"], 2, ["X","Z"])]`: the single optimal
partial tiling matches the symbol `"Y"`, leaving `missingCount = 2` and
missing letters `["X","Z"]`. -/
theorem spell_Xyz_closest_match :
    (spellWord "Xyz").can_be_spelled = false ∧
    (spellWord "Xyz").closest_matches = [(["Y"], 2, ['X', 'Z'])] := by
  decide

/-- C2: every triple returned by the closest-match search has
`missingCount = len(word) - sum(len(symbol) for symbol in tiling)`, and that
`missingCount` is the same for all returned triples, namely the minimum of
`len(word) - letters_used` over all partial tilings (leaves) explored by the
search. -/
theorem closestMatch_missingCount_minimal (word : String)
    (r : List String × Nat × List Char) (hr : r ∈ findClosestMatch word) :
    r.2.1 = (low word).length - symLen r.1 ∧
    r.2.1 = bestMissing word ∧
    ∀ l ∈ pmLeaves (low word) [] 0, bestMissing word ≤ (low word).length - l.2 := by
  rw [findClosestMatch_eq_filter] at hr
  rcases List.mem_map.mp hr with ⟨l, hlf, rfl⟩
  obtain ⟨hlpm, hpred⟩ := List.mem_filter.mp hlf
  have hpred' : (low word).length - l.2 = bestMissing word := by
    simpa using hpred
  refine ⟨?_, hpred', bestMissing_le word⟩
  show (low word).length - l.2 = (low word).length - symLen l.1
  have hsym : symLen l.1 = l.2 :=
    pmLeaves_symLen (low word).length (low word) le_rfl [] 0 (by simp [symLen]) l hlpm
  rw [hsym]

theorem closestMatch_missingCount_minimal_witness :
    ((([], 1, ['Q']) : List String × Nat × List Char) ∈ findClosestMatch "q") ∧
    (1 = (low "q").length - symLen [] ∧
     1 = bestMissing "q" ∧
     ∀ l ∈ pmLeaves (low "q") [] 0, bestMissing "q" ≤ (low "q").length - l.2) :=
  ⟨by decide, closestMatch_missingCount_minimal "q" ([], 1, ['Q']) (by decide)⟩

/-- C3: for every word and every triple returned by the closest-match search,
the missing-letter calculator applied to the word and the triple's tiling
returns a list whose length equals the triple's `missingCount`. -/
theorem closestMatch_missing_length (word : String)
    (r : List String × Nat × List Char) (hr : r ∈ findClosestMatch word) :
    (findMissingLetters word.data r.1).length = r.2.1 := by
  rw [findClosestMatch_eq_filter] at hr
  rcases List.mem_map.mp hr with ⟨l, hlf, rfl⟩
  obtain ⟨hlpm, -⟩ := List.mem_filter.mp hlf
  show (findMissingLetters word.data l.1).length = (low word).length - l.2
  rcases pmLeaves_covered_le (low word).length (low word) le_rfl [] 0 l hlpm with
    ⟨ext, hext, hle⟩
  simp only [List.nil_append] at hext
  have hcov : (lowConcat l.1 : Multiset Char) ≤
      ((word.data.map pyLower : List Char) : Multiset Char) := by
    rw [hext]
    exact hle
  have hsym : symLen l.1 = l.2 :=
    pmLeaves_symLen (low word).length (low word) le_rfl [] 0 (by simp [symLen]) l hlpm
  rw [findMissingLetters_length hcov, hsym, low_length]

theorem closestMatch_missing_length_witness :
    ((([], 1, ['Q']) : List String × Nat × List Char) ∈ findClosestMatch "q") ∧
    (findMissingLetters "q".data []).length = 1 :=
  ⟨by decide, closestMatch_missing_length "q" ([], 1, ['Q']) (by decide)⟩

/-- C4: every tiling returned by the exact decomposer concatenates,
case-insensitively, to exactly the input word: the lowercased concatenation of
its symbols is the lowercased input word. -/
theorem decompose_roundTrip (word : String) (t : List String)
    (ht : t ∈ findAllSpellings word) : lowConcat t = low word :=
  backtrack_concat (low word).length (low word) le_rfl t ht

theorem decompose_roundTrip_witness :
    (["He"] ∈ findAllSpellings "He") ∧ lowConcat ["He"] = low "He" :=
  ⟨by decide, decompose_roundTrip "He" ["He"] (by decide)⟩

/-- C5: `spell_word` assembles the report exactly as specified: it echoes the
word; if the exact decomposer returns a non-empty list then `canSpell` is
true, `exactSolutions` is that list and `closestMatches` is empty; otherwise
`canSpell` is false, `exactSolutions` is empty and `closestMatches` is the
closest-match search's result. -/
theorem spellWord_assembles (word : String) :
    (spellWord word).word = word ∧
    (if findAllSpellings word = [] then
      (spellWord word).can_be_spelled = false ∧
      (spellWord word).exact_solutions = [] ∧
      (spellWord word).closest_matches = findClosestMatch word
     else
      (spellWord word).can_be_spelled = true ∧
      (spellWord word).exact_solutions = findAllSpellings word ∧
      (spellWord word).closest_matches = []) := by
  refine ⟨rfl, ?_⟩
  by_cases h : findAllSpellings word = []
  · rw [if_pos h]
    refine ⟨?_, ?_, ?_⟩ <;> simp [spellWord, h]
  · rw [if_neg h]
    have hpos : 0 < (findAllSpellings word).length := List.length_pos.mpr h
    refine ⟨?_, ?_, ?_⟩ <;> simp [spellWord, h, hpos]

/-- C6: for a word with no exact tiling, the closest-match results are exactly
the completed partial tilings achieving the minimum missing-letter count,
listed in the DFS traversal order of `pmLeaves` (at each position: the
1-letter symbol branch, then the 2-letter symbol branch, then the skip
branch), each paired with its missing count and missing-letter list. -/
theorem closestMatch_min_ties_dfs_order (word : String)
    (_h : findAllSpellings word = []) :
    findClosestMatch word =
      ((pmLeaves (low word) [] 0).filter
        (fun l => (low word).length - l.2 == bestMissing word)).map (mkEntry (low word)) :=
  findClosestMatch_eq_filter word

theorem closestMatch_min_ties_dfs_order_witness :
    findAllSpellings "q" = [] ∧
    findClosestMatch "q" =
      ((pmLeaves (low "q") [] 0).filter
        (fun l => (low "q").length - l.2 == bestMissing "q")).map (mkEntry (low "q")) :=
  ⟨by decide, closestMatch_min_ties_dfs_order "q" (by decide)⟩

/-- C7: the missing-letter calculator is a multiset difference ignoring
position: two words that are anagrams of each other (equal character
multisets) yield, for the same tiling, missing-letter lists that are equal as
multisets. -/
theorem missingLetters_anagram_invariant (w1 w2 : List Char) (sol : List String)
    (h : (w1 : Multiset Char) = (w2 : Multiset Char)) :
    ((findMissingLetters w1 sol : List Char) : Multiset Char) =
      ((findMissingLetters w2 sol : List Char) : Multiset Char) := by
  rw [findMissingLetters_coe, findMissingLetters_coe, h]

theorem missingLetters_anagram_invariant_witness :
    ((['a', 'b'] : List Char) : Multiset Char) = (['b', 'a'] : List Char) ∧
    ((findMissingLetters ['a', 'b'] ["B"] : List Char) : Multiset Char) =
      ((findMissingLetters ['b', 'a'] ["B"] : List Char) : Multiset Char) :=
  ⟨Multiset.coe_eq_coe.mpr (by decide),
   missingLetters_anagram_invariant ['a', 'b'] ['b', 'a'] ["B"]
     (Multiset.coe_eq_coe.mpr (by decide))⟩

/-- C8: `spell_word` on the empty string yields `canSpell = true`, a single
exact solution (the empty tiling), and no closest matches. -/
theorem spellWord_empty_string : spellWord "" = ⟨"", true, [[]], []⟩ := by
  decide

/-- C9: on a word with at least one exact tiling, the closest-match search
returns exactly the exact decomposer's tilings, in the same order, each with
missing count 0 and an empty missing-letter list. -/
theorem closestMatch_refines_decompose (word : String)
    (h : findAllSpellings word ≠ []) :
    findClosestMatch word =
      (findAllSpellings word).map (fun t => (t, 0, ([] : List Char))) := by
  have hfil := pmLeaves_filter_exact (low word).length (low word) le_rfl [] 0
  simp only [List.nil_append, Nat.zero_add] at hfil
  have hbm : bestMissing word = 0 := by
    rcases List.exists_mem_of_ne_nil _ h with ⟨t0, ht0⟩
    have hmem0 : ((t0, (low word).length) : List String × Nat) ∈
        (pmLeaves (low word) [] 0).filter (fun l => l.2 == (low word).length) := by
      rw [hfil]
      exact List.mem_map.mpr ⟨t0, ht0, rfl⟩
    have hpm0 := (List.mem_filter.mp hmem0).1
    have hle := bestMissing_le word _ hpm0
    simp only [Nat.sub_self] at hle
    omega
  rw [findClosestMatch_eq_filter, hbm]
  have hcongr : (pmLeaves (low word) [] 0).filter
      (fun l => (low word).length - l.2 == 0) =
      (pmLeaves (low word) [] 0).filter (fun l => l.2 == (low word).length) := by
    apply List.filter_congr
    intro l hl
    have hle := pmLeaves_used_le (low word).length (low word) le_rfl [] 0 l hl
    simp only [Nat.zero_add] at hle
    rw [Bool.eq_iff_iff]
    simp only [beq_iff_eq]
    omega
  rw [hcongr, hfil, List.map_map]
  apply List.map_congr_left
  intro t ht
  show mkEntry (low word) (t, (low word).length) = (t, 0, [])
  have hcc : lowConcat t = low word :=
    backtrack_concat (low word).length (low word) le_rfl t ht
  have hnil : findMissingLetters (low word) t = [] := by
    refine findMissingLetters_nil ?_
    rw [hcc, low_map_pyLower]
  unfold mkEntry
  simp [hnil]

theorem closestMatch_refines_decompose_witness :
    findAllSpellings "He" ≠ [] ∧
    findClosestMatch "He" =
      (findAllSpellings "He").map (fun t => (t, 0, ([] : List Char))) :=
  ⟨by decide, closestMatch_refines_decompose "He" (by decide)⟩

/-- C10: the closest-match search never returns an empty list (the all-skip
path always completes, so at least one leaf is recorded); hence `spell_word`
never yields `canSpell = false` together with an empty `closestMatches`. -/
theorem closestMatch_never_empty (word : String) :
    findClosestMatch word ≠ [] ∧
    ((spellWord word).can_be_spelled = false → (spellWord word).closest_matches ≠ []) := by
  refine ⟨findClosestMatch_ne_nil_aux word, ?_⟩
  intro hfalse
  have hexact : findAllSpellings word = [] := by
    by_contra hne
    have hpos : 0 < (findAllSpellings word).length := List.length_pos.mpr hne
    simp [spellWord, hpos] at hfalse
  have hcm : (spellWord word).closest_matches = findClosestMatch word := by
    simp [spellWord, hexact]
  rw [hcm]
  exact findClosestMatch_ne_nil_aux word

theorem closestMatch_never_empty_witness :
    findClosestMatch "q" ≠ [] ∧ (spellWord "q").closest_matches ≠ [] :=
  ⟨(closestMatch_never_empty "q").1, (closestMatch_never_empty "q").2 (by decide)⟩

end PeriodicSpeller
